import Mathlib

/-!
Shallow embedding of the core of the `metaimport` command
(`src/metaimport.go`): the package-directory resolver `packageDirs`, the
godoc strategy selector `determineGodocSpec` with its `GodocSpec` variants,
and the per-unit assembly performed by `main`.

File paths coming from a git tree are slash-separated relative paths; the
target platform of the model is the Unix build, where the path separator is
`/`, `filepath.ToSlash` is the identity, and `filepath.Dir`/`filepath.Base`/
`filepath.Join` agree with the slash-path functions modelled here.
-/

namespace Metaimport

/-- Go `strings.HasPrefix s pre`: whether `pre` is a prefix of `s`. -/
def hasPrefix (s pre : String) : Bool :=
  List.isPrefixOf pre.data s.data

/-- Go `strings.HasSuffix s suf`: whether `suf` is a suffix of `s`. -/
def hasSuffix (s suf : String) : Bool :=
  List.isSuffixOf suf.data s.data

/-- Go `strings.TrimPrefix s pre`: `s` without the leading `pre`, or `s`
unchanged when `pre` is not a prefix of `s`. -/
def trimPrefix (s pre : String) : String :=
  if hasPrefix s pre then String.mk (s.data.drop pre.data.length) else s

/-- Split a character list on `/`: the list of path components, as Go's
path functions see them (an empty component for each doubled, leading or
trailing slash). -/
def splitSlash : List Char → List (List Char)
  | [] => [[]]
  | c :: cs =>
    if c = '/' then [] :: splitSlash cs
    else
      match splitSlash cs with
      | [] => [[c]]
      | p :: ps => (c :: p) :: ps

/-- One step of Go `path.Clean`'s element processing: skip empty and `.`
components, let `..` pop the previous component (or survive when there is
nothing to pop and the path is not rooted), keep everything else. The
accumulator holds the kept components in reverse. -/
def cleanStep (rooted : Bool) (acc : List (List Char)) (c : List Char) : List (List Char) :=
  if c = [] ∨ c = ['.'] then acc
  else if c = ['.', '.'] then
    match acc with
    | [] => if rooted then [] else [['.', '.']]
    | a :: rest => if a = ['.', '.'] then c :: acc else rest
  else c :: acc

/-- Join components with `/`. -/
def joinSlash : List (List Char) → List Char
  | [] => []
  | [c] => c
  | c :: cs => c ++ '/' :: joinSlash cs

/-- Go `path.Clean` on a character list: empty input cleans to `.`, a rooted
path keeps its leading `/`, `.`/`..`/empty components are resolved, and a
path that cleans away entirely becomes `/` (rooted) or `.` (relative). -/
def pathCleanList (cs : List Char) : List Char :=
  if cs = [] then ['.']
  else
    let rooted := cs.head? == some '/'
    let comps := ((splitSlash cs).foldl (cleanStep rooted) []).reverse
    let s := joinSlash comps
    if s = [] then (if rooted then ['/'] else ['.'])
    else (if rooted then '/' :: s else s)

/-- Go `path.Clean` on strings. -/
def pathClean (p : String) : String :=
  String.mk (pathCleanList p.data)

/-- Go `path.Join` of two elements: empty elements contribute nothing, the
rest are joined with `/` and the result is cleaned; all-empty input joins
to the empty string. (Go appends a separator before every element after the
first once the buffer is non-empty, so `Join a ""` cleans `a ++ "/"`.) -/
def pathJoin (a b : String) : String :=
  if a = "" ∧ b = "" then ""
  else if a = "" then pathClean b
  else pathClean (a ++ "/" ++ b)

/-- The characters of a path up to and including its last `/`, or `none`
when the path has no `/` at all. -/
def dirPart : List Char → Option (List Char)
  | [] => none
  | c :: cs =>
    match dirPart cs with
    | some r => some (c :: r)
    | none => if c = '/' then some ['/'] else none

/-- Go `filepath.Dir` on the Unix build: everything up to the last path
separator, cleaned; a path with no separator has directory `.`. -/
def filepathDir (p : String) : String :=
  match dirPart p.data with
  | none => "."
  | some r => String.mk (pathCleanList r)

/-- Go `filepath.Base` on the Unix build: the last element of the path after
trailing separators are removed; the empty path has base `.`, and a path of
only separators has base `/`. -/
def filepathBase (p : String) : String :=
  if p.data = [] then "."
  else
    let q := (p.data.reverse.dropWhile (fun c => c = '/')).reverse
    if q = [] then "/"
    else String.mk ((q.reverse.takeWhile (fun c => c ≠ '/')).reverse)

/-- One step of the snapshot iterator (`tree.Files()`): a file record with
its slash-separated relative path, or a read failure with its message.
`io.EOF`, which ends the iteration normally, is represented by the end of
the list. -/
inductive IterResult where
  | file (name : String)
  | err (msg : String)
deriving DecidableEq

/-- The loop body of `packageDirs` (src/metaimport.go:297-330), with the
accumulated directory set explicit: a read failure aborts with the wrapped
error; a file whose directory's base is `testdata`, whose name begins with
`.` or `_`, or whose name does not end in `.go` is skipped; otherwise the
file's directory is inserted (a no-op when already present). -/
def packageDirsLoop : List IterResult → Finset String → Except String (Finset String)
  | [], dirs => .ok dirs
  | IterResult.err msg :: _, _ => .error ("getting next file in tree: " ++ msg)
  | IterResult.file name :: rest, dirs =>
    let d := filepathDir name
    if filepathBase d == "testdata" then
      packageDirsLoop rest dirs
    else if hasPrefix name "." || hasPrefix name "_" || !(hasSuffix name ".go") then
      packageDirsLoop rest dirs
    else if d ∈ dirs then
      packageDirsLoop rest dirs
    else
      packageDirsLoop rest (insert d dirs)

/-- `packageDirs` (src/metaimport.go:297-330): the set of directories of the
snapshot's qualifying Go files, or the propagated iterator error. -/
def packageDirs (listing : List IterResult) : Except String (Finset String) :=
  packageDirsLoop listing ∅

/-- The inclusion predicate applied by `packageDirs` to a file record:
the record's directory is not named `testdata`, the record's name does not
begin with `.` or `_`, and the record's name ends in `.go`. -/
def includedFile (name : String) : Bool :=
  !(filepathBase (filepathDir name) == "testdata")
    && !(hasPrefix name "." || hasPrefix name "_" || !(hasSuffix name ".go"))

theorem packageDirsLoop_files_eq (names : List String) (acc : Finset String) :
    packageDirsLoop (names.map IterResult.file) acc
      = .ok (acc ∪ ((names.filter includedFile).map filepathDir).toFinset) := by
  induction names generalizing acc with
  | nil => simp [packageDirsLoop]
  | cons n rest ih =>
    by_cases h1 : filepathBase (filepathDir n) == "testdata"
    · simp only [List.map_cons, packageDirsLoop, h1, if_pos]
      rw [ih]
      simp [List.filter_cons, includedFile, h1]
    · by_cases h2 : hasPrefix n "." || hasPrefix n "_" || !(hasSuffix n ".go")
      · simp only [List.map_cons, packageDirsLoop, h1, h2]
        simp only [Bool.false_eq_true, if_false, if_true]
        rw [ih]
        simp [List.filter_cons, includedFile, h1, h2]
      · have hinc : includedFile n = true := by
          simp [includedFile, h1, h2]
        by_cases h3 : filepathDir n ∈ acc
        · simp only [List.map_cons, packageDirsLoop, h1, h2]
          simp only [Bool.false_eq_true, if_false, h3, if_pos, if_true]
          rw [ih]
          congr 1
          simp only [List.filter_cons, hinc, if_pos, List.map_cons, List.toFinset_cons,
            Finset.union_insert]
          rw [Finset.insert_eq_self.mpr]
          exact Finset.mem_union_left _ h3
        · simp only [List.map_cons, packageDirsLoop, h1, h2]
          simp only [Bool.false_eq_true, if_false, h3, if_neg, if_true]
          rw [ih]
          congr 1
          simp only [List.filter_cons, hinc, if_pos, List.map_cons, List.toFinset_cons,
            Finset.union_insert, Finset.insert_union]

theorem includedFile_iff (name : String) :
    includedFile name = true ↔
      ¬(filepathBase (filepathDir name) = "testdata"
        ∨ hasPrefix name "." = true ∨ hasPrefix name "_" = true
        ∨ hasSuffix name ".go" = false) := by
  simp only [includedFile, Bool.and_eq_true, Bool.not_eq_true', Bool.or_eq_false_iff,
    beq_eq_false_iff_ne, ne_eq, Bool.not_eq_false, not_or, Bool.not_eq_true,
    Bool.not_eq_false']
  tauto

/-- C1: a file record is excluded by `packageDirs` exactly when the last path
component of its directory is `testdata`, or its name (its full relative
path, the record's `Name` field) begins with `.` or `_`, or its name does
not end in the `.go` extension; and the directories of the records that are
not excluded are exactly the members of the resulting set. -/
theorem packageDirs_excludes_iff (names : List String) :
    ∃ S : Finset String,
      packageDirs (names.map IterResult.file) = .ok S ∧
      ∀ d : String,
        d ∈ S ↔ ∃ name ∈ names,
          ¬(filepathBase (filepathDir name) = "testdata"
            ∨ hasPrefix name "." = true ∨ hasPrefix name "_" = true
            ∨ hasSuffix name ".go" = false)
          ∧ filepathDir name = d := by
  refine ⟨((names.filter includedFile).map filepathDir).toFinset, ?_, ?_⟩
  · rw [packageDirs, packageDirsLoop_files_eq, Finset.empty_union]
  · intro d
    simp only [List.mem_toFinset, List.mem_map, List.mem_filter]
    constructor
    · rintro ⟨n, ⟨hn, hinc⟩, hd⟩
      exact ⟨n, hn, (includedFile_iff n).mp hinc, hd⟩
    · rintro ⟨n, hn, hinc, hd⟩
      exact ⟨n, ⟨hn, (includedFile_iff n).mpr hinc⟩, hd⟩

/-- C2: every directory in the output of `packageDirs` directly contains a
qualifying file record: one whose directory is that directory, whose
directory is not named `testdata`, whose name does not begin with `.` or
`_`, and whose name ends in `.go`. -/
theorem packageDirs_mem_direct_file (names : List String) (S : Finset String)
    (h : packageDirs (names.map IterResult.file) = .ok S) :
    ∀ d ∈ S, ∃ name ∈ names,
      filepathDir name = d
      ∧ filepathBase (filepathDir name) ≠ "testdata"
      ∧ hasPrefix name "." = false ∧ hasPrefix name "_" = false
      ∧ hasSuffix name ".go" = true := by
  intro d hd
  rw [packageDirs, packageDirsLoop_files_eq, Finset.empty_union] at h
  rw [Except.ok.injEq] at h
  have hd' : d ∈ ((names.filter includedFile).map filepathDir).toFinset := h ▸ hd
  simp only [List.mem_toFinset, List.mem_map, List.mem_filter] at hd'
  obtain ⟨n, ⟨hn, hinc⟩, hdir⟩ := hd'
  have := (includedFile_iff n).mp hinc
  push_neg at this
  obtain ⟨h1, h2, h3, h4⟩ := this
  exact ⟨n, hn, hdir, h1,
    Bool.not_eq_true _ ▸ h2, Bool.not_eq_true _ ▸ h3,
    Bool.not_eq_false _ ▸ h4⟩

/-- Witness for C2: on the snapshot `[main.go, sub/lib.go,
sub/testdata/fixture.go]` the resolved set is `{sub, .}`, and the unit `sub`
directly contains a qualifying file. -/
theorem packageDirs_mem_direct_file_witness :
    ∃ name ∈ ["main.go", "sub/lib.go", "sub/testdata/fixture.go"],
      filepathDir name = "sub"
      ∧ filepathBase (filepathDir name) ≠ "testdata"
      ∧ hasPrefix name "." = false ∧ hasPrefix name "_" = false
      ∧ hasSuffix name ".go" = true :=
  packageDirs_mem_direct_file
    ["main.go", "sub/lib.go", "sub/testdata/fixture.go"]
    {"sub", "."}
    (by rw [packageDirs, packageDirsLoop_files_eq, Finset.empty_union]
        exact congrArg Except.ok (by decide))
    "sub" (by decide)

/-- C3: the resolver is deterministic (same snapshot, same result), its
result is invariant under permutation of the file listing, and the
accumulated set grows monotonically (a directory once inserted is never
removed by later records). -/
theorem packageDirs_order_independent_monotone :
    (∀ listing : List IterResult, packageDirs listing = packageDirs listing)
    ∧ (∀ names₁ names₂ : List String, names₁.Perm names₂ →
        packageDirs (names₁.map IterResult.file)
          = packageDirs (names₂.map IterResult.file))
    ∧ (∀ listing : List IterResult, ∀ acc S : Finset String,
        packageDirsLoop listing acc = .ok S → acc ⊆ S) := by
  refine ⟨fun _ => rfl, ?_, ?_⟩
  · intro names₁ names₂ hperm
    rw [packageDirs, packageDirs, packageDirsLoop_files_eq, packageDirsLoop_files_eq]
    have : ((names₁.filter includedFile).map filepathDir).toFinset
        = ((names₂.filter includedFile).map filepathDir).toFinset := by
      apply Finset.ext
      intro a
      simp only [List.mem_toFinset]
      exact ((hperm.filter includedFile).map filepathDir).mem_iff
    rw [this]
  · intro listing
    induction listing with
    | nil =>
      intro acc S h
      simp only [packageDirsLoop, Except.ok.injEq] at h
      exact h ▸ Finset.Subset.refl acc
    | cons x rest ih =>
      intro acc S h
      cases x with
      | err msg => simp [packageDirsLoop] at h
      | file name =>
        simp only [packageDirsLoop] at h
        split at h
        · exact ih acc S h
        · split at h
          · exact ih acc S h
          · split at h
            · exact ih acc S h
            · exact (Finset.subset_insert _ acc).trans (ih _ S h)

theorem packageDirsLoop_error (names : List String) (msg : String)
    (rest : List IterResult) (acc : Finset String) :
    packageDirsLoop (names.map IterResult.file ++ IterResult.err msg :: rest) acc
      = .error ("getting next file in tree: " ++ msg) := by
  induction names generalizing acc with
  | nil => simp [packageDirsLoop]
  | cons n ns ih =>
    simp only [List.map_cons, List.cons_append, packageDirsLoop]
    split
    · exact ih acc
    · split
      · exact ih acc
      · split
        · exact ih acc
        · exact ih _

/-- C10: when the snapshot iterator reports a read failure, `packageDirs`
propagates the wrapped error and returns no partial result set: no `.ok`
value is observable, whatever qualifying files preceded the failure. -/
theorem packageDirs_error_no_partial (names : List String) (msg : String)
    (rest : List IterResult) :
    packageDirs (names.map IterResult.file ++ IterResult.err msg :: rest)
      = .error ("getting next file in tree: " ++ msg)
    ∧ ∀ S : Finset String,
        packageDirs (names.map IterResult.file ++ IterResult.err msg :: rest)
          ≠ .ok S := by
  have h := packageDirsLoop_error names msg rest ∅
  refine ⟨h, fun S hS => ?_⟩
  rw [packageDirs] at hS
  rw [h] at hS
  exact Except.noConfusion hS

/-- `shortBranch` (src/metaimport.go:202-204): a ref-qualified branch name
with the `refs/heads/` prefix stripped. -/
def shortBranch (long : String) : String :=
  trimPrefix long "refs/heads/"

/-- The `GodocSpec` interface and its three implementations
(src/metaimport.go:225-257), as a closed sum: `GitHub` carries the
repository URL and a branch name, `BitBucket` and `Default` carry only the
repository URL. -/
inductive GodocSpec where
  | GitHub (repoURL branch : String)
  | BitBucket (repoURL : String)
  | Default (repoURL : String)
deriving DecidableEq

/-- `home()` of each `GodocSpec` variant. -/
def GodocSpec.home : GodocSpec → String
  | .GitHub _ _ => "_"
  | .BitBucket _ => "_"
  | .Default repoURL => repoURL

/-- `directory()` of each `GodocSpec` variant. -/
def GodocSpec.directory : GodocSpec → String
  | .GitHub repoURL branch => repoURL ++ "/tree/" ++ branch ++ "\x7b/dir\x7d"
  | .BitBucket repoURL => repoURL ++ "/src/HEAD\x7b/dir\x7d"
  | .Default repoURL => repoURL

/-- `file()` of each `GodocSpec` variant. -/
def GodocSpec.file : GodocSpec → String
  | .GitHub repoURL branch =>
    repoURL ++ "/tree/" ++ branch ++ "\x7b/dir\x7d/\x7bfile\x7d#L\x7bline\x7d"
  | .BitBucket repoURL =>
    repoURL ++ "/src/HEAD\x7b/dir\x7d/\x7bfile\x7d?fileviewer=file-view-default#\x7bfile\x7d-\x7bline\x7d"
  | .Default repoURL => repoURL

/-- `determineGodocSpec` (src/metaimport.go:206-222). `parsedHost` abstracts
the outcome of the external `net/url.Parse` call on `repoURL`: `none` when
Parse returns a non-nil error, `some h` when it succeeds with `Host` equal
to `h`. `remoteDefaultBranch` is the default-branch ref reported by the
remote (`repo.Remotes[git.DefaultRemoteName].DefaultBranch()`). -/
def determineGodocSpec (parsedHost : Option String)
    (repoURL requestedBranch : String) (usedDefaultBranch : Bool)
    (remoteDefaultBranch : String) : GodocSpec :=
  match parsedHost with
  | some host =>
    if host = "github.com" then
      let b := if usedDefaultBranch then shortBranch remoteDefaultBranch
               else requestedBranch
      GodocSpec.GitHub repoURL b
    else if host = "bitbucket.org" then
      if usedDefaultBranch || shortBranch remoteDefaultBranch == requestedBranch then
        GodocSpec.BitBucket repoURL
      else
        GodocSpec.Default repoURL
    else
      GodocSpec.Default repoURL
  | none => GodocSpec.Default repoURL

/-- C4: for a repository URL parsing with host `bitbucket.org`, the selector
returns the BitBucket variant exactly when the default branch was used or
the requested branch equals the remote's default branch stripped of its
`refs/heads/` prefix; otherwise it returns the Default variant, whose
`directory()` is the bare repository URL. -/
theorem determineGodocSpec_bitbucket (repoURL requestedBranch : String)
    (usedDefaultBranch : Bool) (remoteDefaultBranch : String) :
    (determineGodocSpec (some "bitbucket.org") repoURL requestedBranch
        usedDefaultBranch remoteDefaultBranch
        = GodocSpec.BitBucket repoURL
      ↔ (usedDefaultBranch = true
        ∨ shortBranch remoteDefaultBranch = requestedBranch))
    ∧ (¬(usedDefaultBranch = true
        ∨ shortBranch remoteDefaultBranch = requestedBranch) →
      determineGodocSpec (some "bitbucket.org") repoURL requestedBranch
          usedDefaultBranch remoteDefaultBranch
        = GodocSpec.Default repoURL
      ∧ GodocSpec.directory
          (determineGodocSpec (some "bitbucket.org") repoURL requestedBranch
            usedDefaultBranch remoteDefaultBranch)
        = repoURL) := by
  have hne : ("bitbucket.org" : String) ≠ "github.com" := by decide
  constructor
  · by_cases h : usedDefaultBranch || shortBranch remoteDefaultBranch == requestedBranch
    · simp only [determineGodocSpec, hne, if_false, if_neg, h, if_true, if_pos, true_iff]
      simpa using h
    · simp only [determineGodocSpec, hne, if_false, if_neg, h, Bool.false_eq_true, if_true]
      constructor
      · intro hcontra
        exact GodocSpec.noConfusion hcontra
      · intro hcond
        exfalso
        apply h
        simpa using hcond
  · intro hfail
    have h : (usedDefaultBranch || shortBranch remoteDefaultBranch == requestedBranch) = false := by
      simpa using hfail
    simp [determineGodocSpec, hne, h, GodocSpec.directory]

/-- C5: for a repository URL parsing with host `github.com`, the selector
returns the GitHub variant unconditionally; the embedded branch is the
remote's default branch stripped of `refs/heads/` when the default branch
was used and the requested branch otherwise, and `directory()` is the
repository URL followed by `/tree/`, the embedded branch, and the literal
placeholder `\x7b/dir\x7d`. -/
theorem determineGodocSpec_github (repoURL requestedBranch : String)
    (usedDefaultBranch : Bool) (remoteDefaultBranch : String) :
    determineGodocSpec (some "github.com") repoURL requestedBranch
        usedDefaultBranch remoteDefaultBranch
      = GodocSpec.GitHub repoURL
          (if usedDefaultBranch then shortBranch remoteDefaultBranch
           else requestedBranch)
    ∧ GodocSpec.directory
        (determineGodocSpec (some "github.com") repoURL requestedBranch
          usedDefaultBranch remoteDefaultBranch)
      = repoURL ++ "/tree/"
          ++ (if usedDefaultBranch then shortBranch remoteDefaultBranch
              else requestedBranch)
          ++ "\x7b/dir\x7d" := by
  constructor
  · simp [determineGodocSpec]
  · simp [determineGodocSpec, GodocSpec.directory]

/-- C6: the selector is total and never surfaces a URL parse failure: when
parsing fails, or the host matches no recognized provider, it returns the
Default variant, whose `home()`, `directory()` and `file()` are all the
bare repository URL. -/
theorem determineGodocSpec_fallback_default (parsedHost : Option String)
    (repoURL requestedBranch : String) (usedDefaultBranch : Bool)
    (remoteDefaultBranch : String)
    (h : parsedHost = none
      ∨ ∀ host, parsedHost = some host →
          host ≠ "github.com" ∧ host ≠ "bitbucket.org") :
    determineGodocSpec parsedHost repoURL requestedBranch usedDefaultBranch
        remoteDefaultBranch
      = GodocSpec.Default repoURL
    ∧ GodocSpec.home (GodocSpec.Default repoURL) = repoURL
    ∧ GodocSpec.directory (GodocSpec.Default repoURL) = repoURL
    ∧ GodocSpec.file (GodocSpec.Default repoURL) = repoURL := by
  refine ⟨?_, rfl, rfl, rfl⟩
  cases h with
  | inl hnone => rw [hnone]; rfl
  | inr hother =>
    cases parsedHost with
    | none => rfl
    | some host =>
      obtain ⟨h1, h2⟩ := hother host rfl
      simp [determineGodocSpec, h1, h2]

/-- Witness for C6: the unparsable empty repository URL (Parse outcome
`none`) yields the Default variant and the bare URL from all three
queries. -/
theorem determineGodocSpec_fallback_default_witness :
    determineGodocSpec none "" "" false "" = GodocSpec.Default ""
    ∧ GodocSpec.home (GodocSpec.Default "") = ""
    ∧ GodocSpec.directory (GodocSpec.Default "") = ""
    ∧ GodocSpec.file (GodocSpec.Default "") = "" :=
  determineGodocSpec_fallback_default none "" "" false "" (Or.inl rfl)

/-- `GoImport` (src/metaimport.go:286-288): the data of the go-import meta
tag. -/
structure GoImport where
  ImportPrefix : String
  VCS : String
  RepoRoot : String
deriving DecidableEq

/-- `GoSource` (src/metaimport.go:290-295): the data of the go-source meta
tag. -/
structure GoSource where
  Prefix : String
  Home : String
  Directory : String
  File : String
deriving DecidableEq

/-- `TemplateArgs` (src/metaimport.go:279-284): everything the HTML template
is rendered with; `GoSource` is present only when `-godoc` was given. -/
structure TemplateArgs where
  GoImport : Metaimport.GoImport
  GoSource : Option Metaimport.GoSource
  GodocRedirect : Bool
  GodocURL : String
deriving DecidableEq

/-- The directory normalization at the head of main's assembly loop
(src/metaimport.go:123-126): the resolver's root sentinel `.` becomes the
empty relative path; `filepath.ToSlash` is the identity on the Unix
build. -/
def unitRelPath (d : String) : String :=
  if d = "." then "" else d

/-- `fullImportPrefix` (src/metaimport.go:128): the root import prefix
joined with the unit's normalized relative path. -/
def fullImportPrefix (baseImportPrefix d : String) : String :=
  pathJoin baseImportPrefix (unitRelPath d)

/-- The `TemplateArgs` main builds for one resolved directory `d`
(src/metaimport.go:123-148): the go-import tag always embeds the
repository-root import prefix (deliberately not `fullImportPrefix`, see the
comment at src/metaimport.go:131-132), the godoc URL appends the full
prefix of the unit to `https://godoc.org/`, and the go-source tag, when `-godoc`
was given, takes its three URLs from the selected `GodocSpec`. -/
def templateArgsFor (baseImportPrefix repoURL : String) (godocRedirect : Bool)
    (godocSpec : Option GodocSpec) (d : String) : TemplateArgs :=
  { GoImport := { ImportPrefix := baseImportPrefix, VCS := "git", RepoRoot := repoURL }
    GodocURL := "https://godoc.org/" ++ fullImportPrefix baseImportPrefix d
    GodocRedirect := godocRedirect
    GoSource := godocSpec.map fun g =>
      { Prefix := baseImportPrefix, Home := g.home, Directory := g.directory,
        File := g.file } }

/-- C7: for every resolved unit, the assembled metadata embeds the
repository-root import prefix — the same record for all units, never the
per-unit path — and the external documentation URL is the root
prefix joined with the unit's normalized relative path, under the godoc
host. When the go-source tag is present its prefix is likewise the
repository-root import prefix. -/
theorem templateArgs_root_import (baseImportPrefix repoURL : String)
    (godocRedirect : Bool) (godocSpec : Option GodocSpec) (d : String) :
    (templateArgsFor baseImportPrefix repoURL godocRedirect godocSpec d).GoImport.ImportPrefix
        = baseImportPrefix
    ∧ (∀ d' : String,
        (templateArgsFor baseImportPrefix repoURL godocRedirect godocSpec d).GoImport
          = (templateArgsFor baseImportPrefix repoURL godocRedirect godocSpec d').GoImport)
    ∧ (templateArgsFor baseImportPrefix repoURL godocRedirect godocSpec d).GodocURL
        = "https://godoc.org/" ++ pathJoin baseImportPrefix (unitRelPath d)
    ∧ (∀ g : GodocSpec,
        (templateArgsFor baseImportPrefix repoURL godocRedirect (some g) d).GoSource
          = some { Prefix := baseImportPrefix, Home := g.home,
                   Directory := g.directory, File := g.file }) :=
  ⟨rfl, fun _ => rfl, rfl, fun _ => rfl⟩

theorem splitSlash_ne_nil (cs : List Char) : splitSlash cs ≠ [] := by
  cases cs with
  | nil => simp [splitSlash]
  | cons c cs =>
    by_cases h : c = '/'
    · simp [splitSlash, h]
    · cases hs : splitSlash cs with
      | nil => simp [splitSlash, h, hs]
      | cons p ps => simp [splitSlash, h, hs]

theorem splitSlash_append_slash (cs : List Char) :
    splitSlash (cs ++ ['/']) = splitSlash cs ++ [[]] := by
  induction cs with
  | nil => rfl
  | cons c cs ih =>
    by_cases h : c = '/'
    · subst h
      simp [splitSlash, ih]
    · cases hs : splitSlash cs with
      | nil => exact absurd hs (splitSlash_ne_nil cs)
      | cons p ps =>
        have ih' : splitSlash (cs ++ ['/']) = p :: (ps ++ [[]]) := by
          rw [ih, hs]
          rfl
        simp [splitSlash, h, List.append_eq, ih', hs]

theorem pathCleanList_append_slash (cs : List Char) (h : cs ≠ []) :
    pathCleanList (cs ++ ['/']) = pathCleanList cs := by
  obtain ⟨c, cs', rfl⟩ := List.exists_cons_of_ne_nil h
  have hsplit : splitSlash ((c :: cs') ++ ['/']) = splitSlash (c :: cs') ++ [[]] :=
    splitSlash_append_slash (c :: cs')
  have hfold : ∀ r : Bool, ∀ acc : List (List Char),
      (splitSlash (c :: cs') ++ [[]]).foldl (cleanStep r) acc
        = (splitSlash (c :: cs')).foldl (cleanStep r) acc := by
    intro r acc
    rw [List.foldl_append]
    simp [cleanStep]
  simp only [pathCleanList, List.cons_append, List.cons_ne_nil, ite_false,
    List.head?_cons]
  rw [← List.cons_append, hsplit, hfold]

theorem pathClean_append_slash (a : String) (h : a ≠ "") :
    pathClean (a ++ "/") = pathClean a := by
  have hdata : a.data ≠ [] := by
    intro hd
    apply h
    cases a
    simp at hd
    simp [hd]
  rw [pathClean, pathClean]
  congr 1
  have : (a ++ "/").data = a.data ++ ['/'] := by
    simp [String.data_append]
  rw [this, pathCleanList_append_slash a.data hdata]

/-- Counterexample to C8 as stated: with the base import prefix
`example.org/repo/` (not a clean path) and a qualifying file `main.go` at
the repository root, the root unit's full import prefix is the cleaned
`example.org/repo` — not equal to the base import prefix. -/
theorem root_unit_full_import_counterexample :
    packageDirs [IterResult.file "main.go"] = .ok {"."}
    ∧ unitRelPath "." = ""
    ∧ fullImportPrefix "example.org/repo/" "." = "example.org/repo"
    ∧ fullImportPrefix "example.org/repo/" "." ≠ "example.org/repo/" := by
  refine ⟨?_, rfl, by decide, by decide⟩
  have h := packageDirsLoop_files_eq ["main.go"] ∅
  rw [packageDirs]
  rw [List.map_singleton] at h
  rw [h, Finset.empty_union]
  exact congrArg Except.ok (by decide)

/-- C8 (amended): a snapshot with a qualifying file directly at the
repository root resolves the root unit, represented by the sentinel `.`,
which the assembler normalizes to the empty relative path; no suffix is
appended when the full import prefix is derived — it is `path.Join(base,
"")`, which equals the base import prefix whenever the base import prefix
is already a clean path (in general it is the cleaned base). -/
theorem packageDirs_root_unit (names : List String) (name : String)
    (baseImportPrefix : String)
    (h₁ : name ∈ names) (h₂ : includedFile name = true)
    (h₃ : filepathDir name = ".")
    (h₄ : pathClean baseImportPrefix = baseImportPrefix) :
    (∃ S : Finset String,
      packageDirs (names.map IterResult.file) = .ok S ∧ "." ∈ S)
    ∧ unitRelPath "." = ""
    ∧ fullImportPrefix baseImportPrefix "." = baseImportPrefix := by
  have hbase : baseImportPrefix ≠ "" := by
    intro he
    rw [he] at h₄
    exact absurd h₄ (by decide)
  refine ⟨⟨_, by rw [packageDirs, packageDirsLoop_files_eq, Finset.empty_union], ?_⟩,
    rfl, ?_⟩
  · simp only [List.mem_toFinset, List.mem_map, List.mem_filter]
    exact ⟨name, ⟨h₁, h₂⟩, h₃⟩
  · have hur : unitRelPath "." = "" := rfl
    rw [fullImportPrefix, hur, pathJoin]
    rw [if_neg (fun hc => hbase hc.1), if_neg hbase]
    have he : baseImportPrefix ++ "/" ++ "" = baseImportPrefix ++ "/" := by
      apply String.ext
      simp [String.data_append]
    rw [he, pathClean_append_slash baseImportPrefix hbase, h₄]

/-- Witness for C8: the snapshot `[main.go]` with the clean base
prefix `example.org/myrepo` resolves the root sentinel and derives the
base import prefix unchanged. -/
theorem packageDirs_root_unit_witness :
    (∃ S : Finset String,
      packageDirs (["main.go"].map IterResult.file) = .ok S ∧ "." ∈ S)
    ∧ unitRelPath "." = ""
    ∧ fullImportPrefix "example.org/myrepo" "." = "example.org/myrepo" :=
  packageDirs_root_unit ["main.go"] "main.go" "example.org/myrepo"
    (by decide) (by decide) (by decide) (by decide)

/-- Main's local `File` value (src/metaimport.go:117-121): an output
document's unit path and rendered contents. -/
structure OutFile where
  path : String
  contents : String
deriving DecidableEq

/-- The rendering loop of main (src/metaimport.go:123-154), over the
resolved directories in iteration order. The external template engine
(`htmlTmpl.Execute`) is abstracted as `render`; `log.Fatalf`, which aborts
the whole process, is modelled as `Except.error` carrying the fatal
message, so a render failure stops the loop with no file list produced. -/
def buildFiles (render : TemplateArgs → Except String String)
    (baseImportPrefix repoURL : String) (godocRedirect : Bool)
    (godocSpec : Option GodocSpec) : List String → Except String (List OutFile)
  | [] => .ok []
  | d :: rest =>
    let fp := fullImportPrefix baseImportPrefix d
    match render (templateArgsFor baseImportPrefix repoURL godocRedirect godocSpec d) with
    | .error e => .error ("executing template for path " ++ fp ++ ": " ++ e)
    | .ok contents =>
      match buildFiles render baseImportPrefix repoURL godocRedirect godocSpec rest with
      | .error e => .error e
      | .ok fs => .ok ({ path := fp, contents := contents } :: fs)

/-- The output-writing loop of main (src/metaimport.go:166-182). The
external filesystem operations `os.MkdirAll` and `ioutil.WriteFile` are
abstracted as `mkdirAll` and `writeFile`; `log.Fatalf` is modelled as
`Except.error`. On the Unix build `filepath.Join` coincides with
`pathJoin` and `filepath.FromSlash` is the identity. -/
def writeFiles (mkdirAll : String → Except String Unit)
    (writeFile : String → String → Except String Unit)
    (outputDir : String) : List OutFile → Except String Unit
  | [] => .ok ()
  | f :: rest =>
    let dir := pathJoin outputDir f.path
    match mkdirAll dir with
    | .error e => .error ("making directory " ++ dir ++ ": " ++ e)
    | .ok _ =>
      let fname := pathJoin dir "index.html"
      match writeFile fname f.contents with
      | .error e => .error ("writing file " ++ fname ++ ": " ++ e)
      | .ok _ => writeFiles mkdirAll writeFile outputDir rest

/-- C9: a failure to render or to write any single unit's document is fatal
to the whole run: the first failing unit aborts immediately with an error
naming that unit's path (for a render failure) or the file derived from it
(for a write failure), whatever units remain; no partial success is
reported. -/
theorem assembler_aborts_on_failure :
    (∀ render : TemplateArgs → Except String String,
      ∀ baseImportPrefix repoURL : String, ∀ godocRedirect : Bool,
      ∀ godocSpec : Option GodocSpec, ∀ pre post : List String,
      ∀ d e : String,
      (∀ x ∈ pre, ∃ c, render (templateArgsFor baseImportPrefix repoURL
        godocRedirect godocSpec x) = .ok c) →
      render (templateArgsFor baseImportPrefix repoURL godocRedirect
        godocSpec d) = .error e →
      buildFiles render baseImportPrefix repoURL godocRedirect godocSpec
          (pre ++ d :: post)
        = .error ("executing template for path "
            ++ fullImportPrefix baseImportPrefix d ++ ": " ++ e))
    ∧ (∀ mkdirAll : String → Except String Unit,
      ∀ writeFile : String → String → Except String Unit,
      ∀ outputDir : String, ∀ pre post : List OutFile, ∀ f : OutFile,
      ∀ e : String,
      (∀ x ∈ pre, mkdirAll (pathJoin outputDir x.path) = .ok ()
        ∧ writeFile (pathJoin (pathJoin outputDir x.path) "index.html")
            x.contents = .ok ()) →
      mkdirAll (pathJoin outputDir f.path) = .ok () →
      writeFile (pathJoin (pathJoin outputDir f.path) "index.html")
          f.contents = .error e →
      writeFiles mkdirAll writeFile outputDir (pre ++ f :: post)
        = .error ("writing file "
            ++ pathJoin (pathJoin outputDir f.path) "index.html"
            ++ ": " ++ e)) := by
  constructor
  · intro render baseImportPrefix repoURL godocRedirect godocSpec pre post d e hpre hd
    induction pre with
    | nil =>
      simp only [List.nil_append, buildFiles, hd]
    | cons x xs ih =>
      obtain ⟨c, hc⟩ := hpre x (List.mem_cons_self x xs)
      have hxs := ih fun y hy => hpre y (List.mem_cons_of_mem x hy)
      simp only [List.cons_append, buildFiles, hc, List.append_eq, hxs]
  · intro mkdirAll writeFile outputDir pre post f e hpre hmk hwr
    induction pre with
    | nil =>
      simp only [List.nil_append, writeFiles, hmk, hwr]
    | cons x xs ih =>
      obtain ⟨hxmk, hxwr⟩ := hpre x (List.mem_cons_self x xs)
      have hxs := ih fun y hy => hpre y (List.mem_cons_of_mem x hy)
      simp only [List.cons_append, writeFiles, hxmk, hxwr, List.append_eq, hxs]

end Metaimport
